import Mathlib

/-!
Verification development for the posh shell front end.

The definitions below are a shallow embedding of the repository's AST data
model (`psh-core/src/parser/ast/nodes.rs`) and of its word-expansion engine
(`psh-core/src/engine/expand.rs`).  Rust `String`s are modelled as `List Char`
(byte ranges coincide with character ranges on the ASCII inputs considered
here), `Vec` as `List`, `RangeInclusive<usize>` as a pair of `Nat` bounds, and
the fallible environment lookups as `Option`-valued functions.
-/

namespace Posh

/-- Wrapper for the leading-whitespace strings kept by the tree
(`LeadingWhitespace(pub String)` in nodes.rs); modelled directly as the
character list it wraps. -/
abbrev LeadingWhitespace := List Char

/-- Inclusive character range into a word's text, standing for Rust's
`RangeInclusive<usize>`: `lo` is `start()` and `hi` is the inclusive
`end()`. -/
structure RangeInclusive where
  lo : Nat
  hi : Nat

/-- newline_list: a run of whitespace containing at least one newline
(nodes.rs `NewlineList`). -/
structure NewlineList where
  whitespace : List Char

/-- linebreak: an optional newline list (nodes.rs `Linebreak`). -/
structure Linebreak where
  newlines : Option NewlineList

/-- separator_op: `;` (Sync) or `&` (Async), keeping leading whitespace. -/
inductive SeparatorOp where
| Sync (ws : LeadingWhitespace)
| Async (ws : LeadingWhitespace)

/-- The `Default` impl for `SeparatorOp` in nodes.rs:
`Self::Sync(Default::default())`, i.e. a `;` with empty whitespace. -/
def SeparatorOp.defaultSep : SeparatorOp := .Sync []

/-- Logical operator joining pipelines in an and-or list: `&&` or `||`. -/
inductive LogicalOp where
| And (ws : LeadingWhitespace)
| Or (ws : LeadingWhitespace)

/-- separator: an explicit separator_op plus linebreak, or a bare
newline list. -/
inductive Separator where
| Explicit (op : SeparatorOp) (lb : Linebreak)
| Implicit (nl : NewlineList)

/-- sequential_sep: `;` plus linebreak, or a bare newline list. -/
inductive SequentialSeparator where
| Semi (lb : Linebreak)
| Implicit (nl : NewlineList)

/-- The `!` pipeline negation token with its leading whitespace. -/
structure Bang where
  whitespace : LeadingWhitespace

/-- A `#`-to-end-of-line comment with its leading whitespace. -/
structure Comment where
  whitespace : LeadingWhitespace
  content : List Char

/-- The `|` token with its leading whitespace. -/
structure Pipe where
  whitespace : LeadingWhitespace

/-- NAME with its leading whitespace (nodes.rs `Name`). -/
structure Name where
  whitespace : LeadingWhitespace
  name : List Char

/-- File descriptors as classified by nodes.rs `FileDescriptor`. -/
inductive FileDescriptor where
| Stdin
| Stdout
| Stderr
| Other (n : Int)

/-- The seven file-redirection operators of nodes.rs `RedirectionType`. -/
inductive RedirectionType where
| Input
| InputFd
| ReadWrite
| Output
| OutputFd
| OutputAppend
| OutputClobber

/-- Here-document kinds: `<<` (Normal) and `<<-` (StripTabs). -/
inductive HereDocType where
| Normal
| StripTabs

set_option maxHeartbeats 2000000 in
mutual

/-- program: leading linebreak, optional complete_commands with trailing
linebreak, and the unparsed suffix (nodes.rs `SyntaxTree`). -/
inductive SyntaxTree where
| mk (leading : Linebreak) (commands : Option (CompleteCommands × Linebreak)) (unparsed : List Char)

/-- complete_commands: a head command and newline-separated tail. -/
inductive CompleteCommands where
| mk (head : CompleteCommand) (tail : List (NewlineList × CompleteCommand))

/-- complete_command: a list with optional separator_op and trailing comment,
or a bare comment (nodes.rs `CompleteCommand`). -/
inductive CompleteCommand where
| List (list : CmdList) (separator_op : Option SeparatorOp) (comment : Option Comment)
| Comment (comment : Comment)

/-- list: and_or lists joined by separator_ops.  Named `List` in nodes.rs;
renamed here to avoid clashing with the core list type. -/
inductive CmdList where
| mk (head : AndOrList) (tail : List (SeparatorOp × AndOrList))

/-- and_or: pipelines joined by `&&` / `||` (nodes.rs `AndOrList`). -/
inductive AndOrList where
| mk (head : Pipeline) (tail : List (LogicalOp × Linebreak × Pipeline))

/-- pipeline: optional `!` and a pipe_sequence. -/
inductive Pipeline where
| mk (bang : Option Bang) (sequence : PipeSequence)

/-- pipe_sequence: commands joined by `|` with linebreaks. -/
inductive PipeSequence where
| mk (head : Command) (tail : List (Pipe × Linebreak × Command))

/-- command: simple, compound (with redirections), or function definition. -/
inductive Command where
| Simple (cmd : SimpleCommand)
| Compound (cmd : CompoundCommand) (redirections : List Redirection)
| FunctionDefinition (def_ : FunctionDefinition)

/-- compound_command: the seven POSIX compound forms. -/
inductive CompoundCommand where
| Brace (g : BraceGroup)
| Subshell (s : Subshell)
| For (f : ForClause)
| Case (c : CaseClause)
| If (i : IfClause)
| While (w : WhileClause)
| Until (u : UntilClause)

/-- subshell: `(` compound_list `)` with the parens' whitespace. -/
inductive Subshell where
| mk (lparen_ws : LeadingWhitespace) (body : CompoundList) (rparen_ws : LeadingWhitespace)

/-- compound_list: linebreak, term, optional separator. -/
inductive CompoundList where
| mk (linebreak : Linebreak) (term : Term) (separator : Option Separator)

/-- term: and_or lists joined by separators. -/
inductive Term where
| mk (head : AndOrList) (tail : List (Separator × AndOrList))

/-- for_clause: the three shapes kept by nodes.rs `ForClause`. -/
inductive ForClause where
| Simple (name : Name) (body : DoGroup)
| Padded (name : Name) (sep : SequentialSeparator) (body : DoGroup)
| Full (name : Name) (lb : Linebreak) (words : List Word) (sep : SequentialSeparator) (body : DoGroup)

/-- case_clause: with case_list, with case_list_ns, or empty. -/
inductive CaseClause where
| Normal (w : Word) (lb1 : Linebreak) (lb2 : Linebreak) (items : CaseList)
| NoSeparator (w : Word) (lb1 : Linebreak) (lb2 : Linebreak) (items : CaseListNs)
| Empty (w : Word) (lb1 : Linebreak) (lb2 : Linebreak)

/-- case_list_ns: optional case_list plus a final item without `;;`. -/
inductive CaseListNs where
| mk (case_list : Option CaseList) (last : CaseItemNs)

/-- case_list: one or more case_items. -/
inductive CaseList where
| mk (head : CaseItem) (tail : List CaseItem)

/-- case_item_ns: a pattern arm without trailing `;;`.  The `Bool` records
the optional opening `(`. -/
inductive CaseItemNs where
| Empty (paren : Bool) (p : Pattern) (lb : Linebreak)
| List (paren : Bool) (p : Pattern) (body : CompoundList)

/-- case_item: a pattern arm terminated by `;;`. -/
inductive CaseItem where
| Empty (paren : Bool) (p : Pattern) (lb1 : Linebreak) (lb2 : Linebreak)
| List (paren : Bool) (p : Pattern) (body : CompoundList) (lb : Linebreak)

/-- pattern: `|`-separated words of a case arm. -/
inductive Pattern where
| mk (head : Word) (tail : List Word)

/-- if_clause: predicate, body, optional else part. -/
inductive IfClause where
| mk (predicate : CompoundList) (body : CompoundList) (else_part : Option ElsePart)

/-- else_part: elif chains plus optional else body. -/
inductive ElsePart where
| mk (elseifs : List (CompoundList × CompoundList)) (else_part : Option CompoundList)

/-- while_clause: predicate and do_group body. -/
inductive WhileClause where
| mk (predicate : CompoundList) (body : DoGroup)

/-- until_clause: predicate and do_group body. -/
inductive UntilClause where
| mk (predicate : CompoundList) (body : DoGroup)

/-- function_definition: fname `()` linebreak function_body.  The spelled
parens are kept as text for round-tripping. -/
inductive FunctionDefinition where
| mk (name : Name) (parens : List Char) (linebreak : Linebreak) (body : FunctionBody)

/-- function_body: compound_command with redirections. -/
inductive FunctionBody where
| mk (command : CompoundCommand) (redirections : List Redirection)

/-- brace_group: `{` compound_list `}` with the braces' whitespace. -/
inductive BraceGroup where
| mk (lbrace_ws : LeadingWhitespace) (body : CompoundList) (rbrace_ws : LeadingWhitespace)

/-- do_group: `do` compound_list `done`. -/
inductive DoGroup where
| mk (body : CompoundList)

/-- simple_command: optional command name, prefixes, suffixes. -/
inductive SimpleCommand where
| mk (name : Option Word) (prefixes : List CmdPrefix) (suffixes : List CmdSuffix)

/-- cmd_prefix element: a redirection or an assignment word. -/
inductive CmdPrefix where
| Redirection (r : Redirection)
| Assignment (a : VariableAssignment)

/-- cmd_suffix element: a redirection or a word. -/
inductive CmdSuffix where
| Redirection (r : Redirection)
| Word (w : Word)

/-- io_redirect: a file redirection or a here-document.  `end_` is the
here-doc delimiter word, called `end` in nodes.rs. -/
inductive Redirection where
| File (whitespace : LeadingWhitespace) (input_fd : Option FileDescriptor) (ty : RedirectionType) (target : Word)
| Here (whitespace : LeadingWhitespace) (input_fd : Option FileDescriptor) (ty : HereDocType) (end_ : Word) (content : Word)

/-- ASSIGNMENT_WORD: `lhs=rhs` with leading whitespace. -/
inductive VariableAssignment where
| mk (whitespace : LeadingWhitespace) (lhs : Name) (rhs : Option Word)

/-- A word: leading whitespace, unexpanded text, and the recorded expansion
annotations (nodes.rs `Word`). -/
inductive Word where
| mk (whitespace : LeadingWhitespace) (name : List Char) (expansions : List Expansion)

/-- An expansion site recorded by the tokenizer, tagged with an inclusive
character range into the owning word's text (nodes.rs `Expansion`). -/
inductive Expansion where
| Tilde (range : RangeInclusive) (name : List Char)
| Glob (range : RangeInclusive) (recursive : Bool) (pattern : List Char)
| Brace (range : RangeInclusive) (pattern : List Char)
| Parameter (range : RangeInclusive) (name : List Char) (finished : Bool) (quoted : Bool)
| Command (range : RangeInclusive) (part : List Char) (tree : SyntaxTree) (finished : Bool) (quoted : Bool)
| Arithmetic (range : RangeInclusive) (expression : Word) (finished : Bool) (quoted : Bool)

end

/-- Leading whitespace of a word. -/
def Word.whitespace : Word → LeadingWhitespace
| .mk ws _ _ => ws

/-- Unexpanded text of a word. -/
def Word.name : Word → List Char
| .mk _ n _ => n

/-- Expansion annotations of a word. -/
def Word.expansions : Word → List Expansion
| .mk _ _ es => es

/-- Head and-or list of a `list` node. -/
def CmdList.head : CmdList → AndOrList
| .mk h _ => h

/-- Tail of a `list` node: separator_op / and_or pairs. -/
def CmdList.tail : CmdList → List (SeparatorOp × AndOrList)
| .mk _ t => t

/-- Optional command name of a simple command. -/
def SimpleCommand.name : SimpleCommand → Option Word
| .mk n _ _ => n

/-- Prefixes of a simple command. -/
def SimpleCommand.prefixes : SimpleCommand → List CmdPrefix
| .mk _ p _ => p

/-- Suffixes of a simple command. -/
def SimpleCommand.suffixes : SimpleCommand → List CmdSuffix
| .mk _ _ s => s

/-- Modelled from the spec: the environment capability consumed by the
expander (`get_value_of(name) -> Option<String>`, `last_status() -> &[i32]`)
together with the `path` module lookups used by tilde expansion
(`home_dir()`, `system_has_user(name)`), which are repository code not under
src/.  The expander reads this state and never writes it. -/
structure Engine where
  getValueOf : List Char → Option (List Char)
  lastStatus : List Int
  homeDir : List Char
  systemHasUser : List Char → Bool

/-- Modelled from the spec: `path::is_portable_filename` (the `path` module
of psh-core is not under src/).  A portable filename consists of characters
from the POSIX portable filename character set: alphanumerics and
`.`, `_`, `-`. -/
def isPortableFilename (name : List Char) : Bool :=
  name.all fun c => c.isAlphanum || c = '.' || c = '_' || c = '-'

/-- Rust `String::replace_range(lo..=hi, repl)` on character lists: the
characters at positions `lo` through `hi` inclusive are replaced by `repl`. -/
def replaceRange (s : List Char) (r : RangeInclusive) (repl : List Char) : List Char :=
  s.take r.lo ++ repl ++ s.drop (r.hi + 1)

/-- True exactly on `Expansion::Tilde` values. -/
def isTildeExp : Expansion → Bool
| .Tilde _ _ => true
| _ => false

/-- True exactly on `Expansion::Parameter` values. -/
def isParamExp : Expansion → Bool
| .Parameter _ _ _ _ => true
| _ => false

/-- True exactly on `Expansion::Glob` values. -/
def isGlobExp : Expansion → Bool
| .Glob _ _ _ => true
| _ => false

/-- True exactly on `Expansion::Brace` values. -/
def isBraceExp : Expansion → Bool
| .Brace _ _ => true
| _ => false

/-- Translation of `Iterator::position` as used in `expand_tilde`: index of
the first `Tilde` annotation in the list, if any. -/
def positionOfTilde : List Expansion → Option Nat
| [] => none
| e :: rest => if isTildeExp e then some 0 else (positionOfTilde rest).map (fun i => i + 1)

/-- The replacement text chosen by `expand_tilde` for a `Tilde{range, name}`
annotation: a user's home (hard-coded `format!("/home/{name}")` in the
source) when the name is a nonempty portable filename of an existing user,
`$HOME` when the name is empty, and the unchanged text otherwise. -/
def tildeReplacement (engine : Engine) (nm : List Char) (r : RangeInclusive) (n : List Char) : List Char :=
  if n ≠ [] ∧ isPortableFilename n ∧ engine.systemHasUser n then
    replaceRange nm r (("/home/").toList ++ n)
  else if n = [] then
    replaceRange nm r engine.homeDir
  else
    nm

/-- `expand_tilde` from expand.rs: find the first `Tilde` annotation, remove
it, and rewrite its range per `tildeReplacement`.  The source reads `$HOME`
and the user database through the `path` module; that access is passed here
explicitly via `engine`.  The inner wildcard branch is unreachable (the found
index always addresses a `Tilde`) and returns the word unchanged. -/
def expandTilde (engine : Engine) (w : Word) : Word :=
  match positionOfTilde w.expansions with
  | none => w
  | some i =>
    match w.expansions.get? i with
    | some (.Tilde r n) =>
      Word.mk w.whitespace (tildeReplacement engine w.name r n) (w.expansions.eraseIdx i)
    | _ => w

/-- The replacement text chosen by `expand_parameters` for a
`Parameter{range, name}` annotation: for `?`, the last exit statuses in
decimal joined by `|`; otherwise the environment's value, or the empty
string when the lookup returns none. -/
def paramReplacement (engine : Engine) (n : List Char) : List Char :=
  if n = ['?'] then
    List.intercalate ['|'] (engine.lastStatus.map fun s => (toString s).toList)
  else
    match engine.getValueOf n with
    | some val => val
    | none => []

/-- Translation of the index-collecting loop of `expand_parameters`
(`for (i, exp) in word.expansions.iter().enumerate().rev()`): the indices of
the `Parameter` annotations, listed from the highest list index down to the
lowest, with `k` the index of the list's first element. -/
def paramIdxsDesc (k : Nat) : List Expansion → List Nat
| [] => []
| e :: rest => paramIdxsDesc (k + 1) rest ++ (if isParamExp e then [k] else [])

/-- The removal loop of `expand_parameters`: for each collected index, remove
the annotation at that index from the current list and rewrite its range.
The wildcard branch models the `unreachable!()` arm (every collected index
addresses a `Parameter`) as a no-op step. -/
def expandParametersGo (engine : Engine) : List Char → List Expansion → List Nat → List Char × List Expansion
| nm, es, [] => (nm, es)
| nm, es, i :: rest =>
  match es.get? i with
  | some (.Parameter r n _ _) =>
    expandParametersGo engine (replaceRange nm r (paramReplacement engine n)) (es.eraseIdx i) rest
  | _ => expandParametersGo engine nm es rest

/-- `expand_parameters` from expand.rs: collect the `Parameter` annotation
indices in descending order, then remove each and replace its range. -/
def expandParameters (engine : Engine) (w : Word) : Word :=
  let p := expandParametersGo engine w.name w.expansions (paramIdxsDesc 0 w.expansions)
  Word.mk w.whitespace p.1 p.2

/-- Quote state of the `remove_quotes` scanner. -/
inductive QuoteState where
| NoQuote
| Single
| Double

/-- The scanning loop of `remove_quotes`.  `QuoteState::None` of the source
is spelled `NoQuote`.  The source threads an `is_escaped` flag; the flag is
set only by a backslash (outside single quotes, and in double quotes only
before `"`), and the very next character is then always consumed by the
catch-all arm, which pushes it literally and clears the flag.  That
one-step-later literal push is fused here into two-character patterns, so
every arm below matches one arm (or an arm pair) of the source `match`. -/
def removeQuotesGo : QuoteState → List Char → List Char
| _, [] => []
| .Single, '\'' :: rest => removeQuotesGo .NoQuote rest
| .NoQuote, '\'' :: rest => removeQuotesGo .Single rest
| .Double, '"' :: rest => removeQuotesGo .NoQuote rest
| .NoQuote, '"' :: rest => removeQuotesGo .Double rest
| .NoQuote, '\\' :: '\n' :: rest => removeQuotesGo .NoQuote rest
| .Double, '\\' :: '\n' :: rest => removeQuotesGo .Double rest
| .NoQuote, '\\' :: c :: rest => c :: removeQuotesGo .NoQuote rest
| .NoQuote, '\\' :: [] => []
| .Double, '\\' :: '"' :: rest => '"' :: removeQuotesGo .Double rest
| state, c :: rest => c :: removeQuotesGo state rest

/-- `remove_quotes` from expand.rs: one left-to-right scan deleting quoting
characters, starting outside quotes. -/
def removeQuotes (s : List Char) : List Char :=
  removeQuotesGo .NoQuote s

/-- `quote_removal` from expand.rs: rebuild the word with `remove_quotes`
applied to its text, keeping whitespace and expansions. -/
def quoteRemoval (w : Word) : Word :=
  Word.mk w.whitespace (removeQuotes w.name) w.expansions

/-- `impl Expand for Word`: tilde expansion, then parameter expansion, then
quote removal (command substitution, arithmetic, field splitting and
pathname expansion are FIXMEs in the source and not performed). -/
def Word.expand (w : Word) (engine : Engine) : Word :=
  quoteRemoval (expandParameters engine (expandTilde engine w))

/-- `impl Expand for Redirection`: expand the target word, or the here-doc
delimiter and content words. -/
def expandRedirection (engine : Engine) : Redirection → Redirection
| .File ws fd ty target => .File ws fd ty (target.expand engine)
| .Here ws fd ty e c => .Here ws fd ty (e.expand engine) (c.expand engine)

/-- `impl Expand for VariableAssignment`: expand the right-hand side word. -/
def expandVariableAssignment (engine : Engine) : VariableAssignment → VariableAssignment
| .mk ws lhs rhs => .mk ws lhs (rhs.map fun w => w.expand engine)

/-- `impl Expand for CmdPrefix`: expand the contained node. -/
def expandCmdPrefix (engine : Engine) : CmdPrefix → CmdPrefix
| .Redirection r => .Redirection (expandRedirection engine r)
| .Assignment a => .Assignment (expandVariableAssignment engine a)

/-- `impl Expand for CmdSuffix`: expand the contained node. -/
def expandCmdSuffix (engine : Engine) : CmdSuffix → CmdSuffix
| .Redirection r => .Redirection (expandRedirection engine r)
| .Word w => .Word (w.expand engine)

/-- Rust `str::replace("\\\n", "")` on the word text: delete every
backslash-newline pair, scanning left to right. -/
def removeEscapedNewlines : List Char → List Char
| [] => []
| '\\' :: '\n' :: rest => removeEscapedNewlines rest
| c :: rest => c :: removeEscapedNewlines rest

/-- The suffix test of `impl Expand for SimpleCommand`: a word suffix whose
text is empty once all backslash-newline pairs are deleted.  The source
queries the text through `Word::name()` (an accessor not under src/),
modelled as the stored text field. -/
def isOnlyEscapedNewlines : CmdSuffix → Bool
| .Word w => (removeEscapedNewlines w.name).isEmpty
| _ => false

/-- The suffix loop of `impl Expand for SimpleCommand`: suffixes consisting
only of escaped newlines are skipped, every other suffix is expanded and
kept. -/
def expandSuffixList (engine : Engine) : List CmdSuffix → List CmdSuffix
| [] => []
| s :: rest =>
  if isOnlyEscapedNewlines s then
    expandSuffixList engine rest
  else
    expandCmdSuffix engine s :: expandSuffixList engine rest

/-- `impl Expand for SimpleCommand`: filter-and-expand the suffixes, expand
the optional name and every prefix.  (The source builds the suffix list
before the name and prefixes; the engine is only read, so the order does not
matter here.) -/
def SimpleCommand.expand (sc : SimpleCommand) (engine : Engine) : SimpleCommand :=
  SimpleCommand.mk (sc.name.map fun w => w.expand engine)
    (sc.prefixes.map (expandCmdPrefix engine))
    (expandSuffixList engine sc.suffixes)

/-- `CompleteCommand::list_with_separator` inner loop: pair every and-or
list with the separator that followed it, closing with `final`. -/
def lwsGo (prev : AndOrList) : List (SeparatorOp × AndOrList) → SeparatorOp → List (AndOrList × SeparatorOp)
| [], final => [(prev, final)]
| (sep, aol) :: rest, final => (prev, sep) :: lwsGo aol rest final

/-- `CompleteCommand::list_with_separator` from nodes.rs: a comment yields
the empty list; otherwise each and-or list is paired with its separator, the
last one getting the stored separator_op or the default `;`. -/
def listWithSeparator : CompleteCommand → List (AndOrList × SeparatorOp)
| .Comment _ => []
| .List l so _ =>
  let final := match so with
    | some sep => sep
    | none => SeparatorOp.defaultSep
  match l.tail with
  | [] => [(l.head, final)]
  | t => lwsGo l.head t final

/-- Modelled from the spec: the `Error` type surfaced at the public boundary
(psh-core's `error.rs` is not under src/; src/ holds only an earlier
posh-core revision of it, while the psh REPL in src/ matches on
`Error::Incomplete` and `Error::CancelledLine`).  The variants and payloads
follow the spec's boundary list. -/
inductive Error where
| Io (inner : List Char)
| NoHome
| InvalidHistfile (path : List Char)
| HistoryOutOfBounds
| UnknownCommand (name : List Char)
| Unimplemented (detail : List Char)
| SyntaxError (detail : List Char)
| Incomplete (detail : List Char)
| CancelledLine
| NonExistentFile (path : List Char)

/-- Modelled from the spec: the errors the parser core itself produces
(`Incomplete(reason)` and `SyntaxError(detail)`); the parser sources are not
under src/. -/
inductive ParserError where
| Incomplete (detail : List Char)
| SyntaxError (detail : List Char)

/-- How a parser-core error surfaces at the public boundary: as the
corresponding distinguished `Error` variant. -/
def ParserError.toError : ParserError → Error
| .Incomplete d => .Incomplete d
| .SyntaxError d => .SyntaxError d

/-- First `Tilde` annotation of a list, together with the list with that
annotation removed: the combined effect of the `position` / `remove` pair in
`expand_tilde`. -/
def extractFirstTilde : List Expansion → Option (RangeInclusive × List Char × List Expansion)
| [] => none
| .Tilde r n :: rest => some (r, n, rest)
| e :: rest => (extractFirstTilde rest).map fun x => (x.1, x.2.1, e :: x.2.2)

/-- A list of expansions with its first `Tilde` annotation (if any)
removed. -/
def removeFirstTilde (es : List Expansion) : List Expansion :=
  match extractFirstTilde es with
  | none => es
  | some x => x.2.2

/-- The `(range, name)` data of the `Parameter` annotations of a list, in
list order. -/
def paramAnnots : List Expansion → List (RangeInclusive × List Char)
| [] => []
| .Parameter r n _ _ :: rest => (r, n) :: paramAnnots rest
| _ :: rest => paramAnnots rest

/-- Engine used for the expansion-ordering scenario of the spec:
`HOME=/h`, `X=a b`, no users, no recorded statuses. -/
def engOrdering : Engine :=
  ⟨fun n => if n = ['X'] then some (("a b").toList) else none, [], ("/h").toList, fun _ => false⟩

/-- The word `~/$X` of the expansion-ordering scenario, annotated exactly as
the claim states: `Tilde` covering index 0 with empty user name, and
`Parameter` covering the `$X` characters (indices 2 to 3) with name `X`. -/
def wordOrdering : Word :=
  .mk [] (("~/$X").toList) [.Tilde ⟨0, 0⟩ [], .Parameter ⟨2, 3⟩ ['X'] true false]

/-- Engine with `HOME=/h` and an otherwise empty environment. -/
def engHome : Engine :=
  ⟨fun _ => none, [], ("/h").toList, fun _ => false⟩

/-- A word carrying two `Tilde` annotations (as produced for colon-separated
tilde prefixes such as `~:~`). -/
def wordTwoTildes : Word :=
  .mk [] (("~:~").toList) [.Tilde ⟨0, 0⟩ [], .Tilde ⟨2, 2⟩ []]

/-- A word carrying `Glob`, `Brace` and two `Tilde` annotations. -/
def wordGlobBrace : Word :=
  .mk [] (("~:~x").toList)
    [.Glob ⟨3, 3⟩ false ['x'], .Brace ⟨3, 3⟩ ['x'], .Tilde ⟨0, 0⟩ [], .Tilde ⟨2, 2⟩ []]

/-- Engine for the parameter-expansion witness: `A=x`, `B=yy`, last pipeline
statuses `[0, 1]`. -/
def engParams : Engine :=
  ⟨fun n => if n = ['A'] then some ['x'] else if n = ['B'] then some ['y', 'y'] else none,
   [0, 1], [], fun _ => false⟩

/-- The word `$A:$?` with its two `Parameter` annotations in source order. -/
def wordParams : Word :=
  .mk [] (("$A:$?").toList) [.Parameter ⟨0, 1⟩ ['A'] true false, .Parameter ⟨3, 4⟩ ['?'] true false]

/-! Helper lemmas relating the source-shaped definitions to direct
structural descriptions. -/

/-- The `position` / `get` / `remove` triple used by `expand_tilde` agrees
with `extractFirstTilde`. -/
theorem extract_cases (es : List Expansion) :
    (positionOfTilde es = none ∧ extractFirstTilde es = none) ∨
    ∃ i r n, positionOfTilde es = some i ∧ es[i]? = some (Expansion.Tilde r n) ∧
      extractFirstTilde es = some (r, n, es.eraseIdx i) := by
  induction es with
  | nil => exact Or.inl ⟨rfl, rfl⟩
  | cons e rest ih =>
    cases e with
    | Tilde r n => exact Or.inr ⟨0, r, n, rfl, by simp, rfl⟩
    | Glob r rec p =>
      rcases ih with ⟨h1, h2⟩ | ⟨i, r', n', h1, h2, h3⟩
      · exact Or.inl ⟨by simp [positionOfTilde, isTildeExp, h1], by simp [extractFirstTilde, h2]⟩
      · exact Or.inr ⟨i + 1, r', n', by simp [positionOfTilde, isTildeExp, h1], by simpa using h2,
          by simp [extractFirstTilde, h3, List.eraseIdx]⟩
    | Brace r p =>
      rcases ih with ⟨h1, h2⟩ | ⟨i, r', n', h1, h2, h3⟩
      · exact Or.inl ⟨by simp [positionOfTilde, isTildeExp, h1], by simp [extractFirstTilde, h2]⟩
      · exact Or.inr ⟨i + 1, r', n', by simp [positionOfTilde, isTildeExp, h1], by simpa using h2,
          by simp [extractFirstTilde, h3, List.eraseIdx]⟩
    | Parameter r n f q =>
      rcases ih with ⟨h1, h2⟩ | ⟨i, r', n', h1, h2, h3⟩
      · exact Or.inl ⟨by simp [positionOfTilde, isTildeExp, h1], by simp [extractFirstTilde, h2]⟩
      · exact Or.inr ⟨i + 1, r', n', by simp [positionOfTilde, isTildeExp, h1], by simpa using h2,
          by simp [extractFirstTilde, h3, List.eraseIdx]⟩
    | Command r p t f q =>
      rcases ih with ⟨h1, h2⟩ | ⟨i, r', n', h1, h2, h3⟩
      · exact Or.inl ⟨by simp [positionOfTilde, isTildeExp, h1], by simp [extractFirstTilde, h2]⟩
      · exact Or.inr ⟨i + 1, r', n', by simp [positionOfTilde, isTildeExp, h1], by simpa using h2,
          by simp [extractFirstTilde, h3, List.eraseIdx]⟩
    | Arithmetic r x f q =>
      rcases ih with ⟨h1, h2⟩ | ⟨i, r', n', h1, h2, h3⟩
      · exact Or.inl ⟨by simp [positionOfTilde, isTildeExp, h1], by simp [extractFirstTilde, h2]⟩
      · exact Or.inr ⟨i + 1, r', n', by simp [positionOfTilde, isTildeExp, h1], by simpa using h2,
          by simp [extractFirstTilde, h3, List.eraseIdx]⟩

/-- `expand_tilde` rewrites by the first `Tilde` annotation and removes
exactly that annotation. -/
theorem expandTilde_clean (engine : Engine) (w : Word) :
    expandTilde engine w =
      match extractFirstTilde w.expansions with
      | none => w
      | some (r, n, rest) => Word.mk w.whitespace (tildeReplacement engine w.name r n) rest := by
  rcases extract_cases w.expansions with ⟨h1, h2⟩ | ⟨i, r, n, h1, h2, h3⟩
  · simp [expandTilde, h1, h2]
  · simp [expandTilde, h1, h2, h3]

/-- Shifting the starting index of the collected parameter indices by one
shifts every index by one. -/
theorem paramIdxsDesc_succ (es : List Expansion) :
    ∀ k, paramIdxsDesc (k + 1) es = (paramIdxsDesc k es).map (fun i => i + 1) := by
  induction es with
  | nil => intro k; rfl
  | cons e rest ih =>
    intro k
    simp [paramIdxsDesc, ih (k + 1)]
    cases isParamExp e <;> simp

/-- The removal loop splits over appended index lists. -/
theorem expandParametersGo_append (engine : Engine) (l1 : List Nat) :
    ∀ (l2 : List Nat) (nm : List Char) (es : List Expansion),
      expandParametersGo engine nm es (l1 ++ l2) =
        expandParametersGo engine (expandParametersGo engine nm es l1).1
          (expandParametersGo engine nm es l1).2 l2 := by
  induction l1 with
  | nil => intro l2 nm es; rfl
  | cons i rest ih =>
    intro l2 nm es
    show expandParametersGo engine nm es (i :: (rest ++ l2)) = _
    rw [expandParametersGo, expandParametersGo]
    cases h : es.get? i with
    | none => simp [ih]
    | some e =>
      cases e <;> simp [ih]

/-- Indices shifted past a fixed head element leave that element in place. -/
theorem expandParametersGo_shift (engine : Engine) (e : Expansion) (l : List Nat) :
    ∀ (nm : List Char) (es : List Expansion),
      expandParametersGo engine nm (e :: es) (l.map (fun i => i + 1)) =
        ((expandParametersGo engine nm es l).1, e :: (expandParametersGo engine nm es l).2) := by
  induction l with
  | nil => intro nm es; rfl
  | cons i rest ih =>
    intro nm es
    show expandParametersGo engine nm (e :: es) ((i + 1) :: rest.map _) = _
    rw [expandParametersGo, expandParametersGo]
    have hg : (e :: es).get? (i + 1) = es.get? i := rfl
    rw [hg]
    cases h : es.get? i with
    | none => simp [ih]
    | some e' =>
      cases e' <;> simp [List.eraseIdx, ih]

/-- The whole removal loop of `expand_parameters`, run on the collected
descending indices: it folds the replacement over the parameter annotations
in reverse list order and filters every `Parameter` annotation out. -/
theorem expandParametersGo_spec (engine : Engine) (es : List Expansion) :
    ∀ nm, expandParametersGo engine nm es (paramIdxsDesc 0 es) =
      (List.foldl (fun nm a => replaceRange nm a.1 (paramReplacement engine a.2)) nm
        ((paramAnnots es).reverse),
       es.filter fun e => ! isParamExp e) := by
  induction es with
  | nil => intro nm; rfl
  | cons e rest ih =>
    intro nm
    have hshift := paramIdxsDesc_succ rest 0
    cases e with
    | Parameter r n f q =>
      show expandParametersGo engine nm (.Parameter r n f q :: rest)
          (paramIdxsDesc 1 rest ++ [0]) = _
      rw [hshift, expandParametersGo_append, expandParametersGo_shift, ih nm]
      simp [expandParametersGo, paramAnnots, List.filter, isParamExp, List.eraseIdx]
    | Glob r rec p =>
      show expandParametersGo engine nm (.Glob r rec p :: rest)
          (paramIdxsDesc 1 rest ++ []) = _
      rw [List.append_nil, hshift, expandParametersGo_shift, ih nm]
      simp [paramAnnots, List.filter, isParamExp]
    | Tilde r n =>
      show expandParametersGo engine nm (.Tilde r n :: rest)
          (paramIdxsDesc 1 rest ++ []) = _
      rw [List.append_nil, hshift, expandParametersGo_shift, ih nm]
      simp [paramAnnots, List.filter, isParamExp]
    | Brace r p =>
      show expandParametersGo engine nm (.Brace r p :: rest)
          (paramIdxsDesc 1 rest ++ []) = _
      rw [List.append_nil, hshift, expandParametersGo_shift, ih nm]
      simp [paramAnnots, List.filter, isParamExp]
    | Command r p t f q =>
      show expandParametersGo engine nm (.Command r p t f q :: rest)
          (paramIdxsDesc 1 rest ++ []) = _
      rw [List.append_nil, hshift, expandParametersGo_shift, ih nm]
      simp [paramAnnots, List.filter, isParamExp]
    | Arithmetic r x f q =>
      show expandParametersGo engine nm (.Arithmetic r x f q :: rest)
          (paramIdxsDesc 1 rest ++ []) = _
      rw [List.append_nil, hshift, expandParametersGo_shift, ih nm]
      simp [paramAnnots, List.filter, isParamExp]

/-- `expand_parameters` folds the replacements over the parameter
annotations in reverse list order and removes every `Parameter`
annotation. -/
theorem expandParameters_clean (engine : Engine) (w : Word) :
    expandParameters engine w =
      Word.mk w.whitespace
        (List.foldl (fun nm a => replaceRange nm a.1 (paramReplacement engine a.2)) w.name
          ((paramAnnots w.expansions).reverse))
        (w.expansions.filter fun e => ! isParamExp e) := by
  cases w with
  | mk ws nm es =>
    show (let p := expandParametersGo engine nm es (paramIdxsDesc 0 es); Word.mk ws p.1 p.2) = _
    rw [expandParametersGo_spec engine es nm]
    rfl

/-- Quote removal does not touch the whitespace or the annotations. -/
theorem quoteRemoval_frame (w : Word) :
    (quoteRemoval w).whitespace = w.whitespace ∧ (quoteRemoval w).expansions = w.expansions :=
  ⟨rfl, rfl⟩

/-- Tilde expansion does not touch the whitespace. -/
theorem expandTilde_whitespace (engine : Engine) (w : Word) :
    (expandTilde engine w).whitespace = w.whitespace := by
  rw [expandTilde_clean]
  cases h : extractFirstTilde w.expansions with
  | none => rfl
  | some x => obtain ⟨r, n, rest⟩ := x; rfl

/-- Tilde expansion leaves exactly the annotations other than the first
`Tilde`. -/
theorem expandTilde_expansions (engine : Engine) (w : Word) :
    (expandTilde engine w).expansions = removeFirstTilde w.expansions := by
  rw [expandTilde_clean, removeFirstTilde]
  cases h : extractFirstTilde w.expansions with
  | none => rfl
  | some x => obtain ⟨r, n, rest⟩ := x; rfl

/-- Parameter expansion does not touch the whitespace. -/
theorem expandParameters_whitespace (engine : Engine) (w : Word) :
    (expandParameters engine w).whitespace = w.whitespace := by
  rw [expandParameters_clean]; rfl

/-- The pairing loop of `list_with_separator` is a zip of the and-or lists
with the shifted separators. -/
theorem lwsGo_zip (tail : List (SeparatorOp × AndOrList)) :
    ∀ (prev : AndOrList) (final : SeparatorOp),
      lwsGo prev tail final =
        (prev :: tail.map Prod.snd).zip (tail.map Prod.fst ++ [final]) := by
  induction tail with
  | nil => intro prev final; rfl
  | cons p rest ih =>
    intro prev final
    obtain ⟨sep, aol⟩ := p
    show (prev, sep) :: lwsGo aol rest final = _
    rw [ih aol final]
    rfl

/-- The suffix loop of `SimpleCommand` expansion is filter-then-map. -/
theorem expandSuffixList_eq (engine : Engine) (ss : List CmdSuffix) :
    expandSuffixList engine ss =
      (ss.filter fun s => ! isOnlyEscapedNewlines s).map (expandCmdSuffix engine) := by
  induction ss with
  | nil => rfl
  | cons s rest ih =>
    cases h : isOnlyEscapedNewlines s with
    | true => simp [expandSuffixList, h, List.filter, ih]
    | false => simp [expandSuffixList, h, List.filter, ih]

/-! Claim theorems. -/

/-- C2.  `remove_quotes` satisfies the four quote-removal laws: an unquoted
backslash-space is collapsed to a space, a single- or double-quoted
backslash-space is kept with the quotes removed, and inside double quotes a
backslash-double-quote pair becomes a double quote while single quotes are
kept. -/
theorem remove_quotes_laws :
    removeQuotes ['h', 'e', 'l', 'l', 'o', '\\', ' ', 't', 'h', 'e', 'r', 'e'] =
      ("hello there").toList ∧
    removeQuotes ['\'', 'h', 'e', 'l', 'l', 'o', '\\', ' ', 't', 'h', 'e', 'r', 'e', '\''] =
      ['h', 'e', 'l', 'l', 'o', '\\', ' ', 't', 'h', 'e', 'r', 'e'] ∧
    removeQuotes ['"', 'h', 'e', 'l', 'l', 'o', '\\', ' ', 't', 'h', 'e', 'r', 'e', '"'] =
      ['h', 'e', 'l', 'l', 'o', '\\', ' ', 't', 'h', 'e', 'r', 'e'] ∧
    removeQuotes ['"', '\'', 'f', 'o', 'o', '\'', ' ', '\\', '"', 'b', 'a', 'r', '\\', '"', '"'] =
      ['\'', 'f', 'o', 'o', '\'', ' ', '"', 'b', 'a', 'r', '"'] :=
  ⟨rfl, rfl, rfl, rfl⟩

/-- C3.  Evaluation of `Word::expand` on the word `~/$X` (annotated with
`Tilde` at index 0 and `Parameter` over indices 2..=3) under `HOME=/h` and
`X=a b`: tilde expansion rewrites the word to `/h/$X`, which shifts the
`$X` characters one position right, and parameter expansion then replaces
the stale range 2..=3, producing `/ha bX` rather than the `/h/a b` the
claim states. -/
theorem expand_ordering_eval :
    (Word.expand wordOrdering engOrdering).name = ("/ha bX").toList ∧
    (Word.expand wordOrdering engOrdering).name ≠ ("/h/a b").toList ∧
    (Word.expand wordOrdering engOrdering).expansions = [] :=
  ⟨rfl, by decide, rfl⟩

/-- C4.  When a word's `Parameter` annotations are stored in increasing
order of range start (as the tokenizer stores them), `expand_parameters`
processes them from the highest start index down to the lowest, replaces
each range by the joined decimal statuses for `?`, by the environment's
value when the lookup succeeds, and by the empty string otherwise (the rule
packaged in `paramReplacement`), and removes every `Parameter`
annotation. -/
theorem expand_parameters_spec (engine : Engine) (w : Word)
    (h : List.Pairwise (fun a b => a.1.lo < b.1.lo) (paramAnnots w.expansions)) :
    expandParameters engine w =
      Word.mk w.whitespace
        (List.foldl (fun nm a => replaceRange nm a.1 (paramReplacement engine a.2)) w.name
          ((paramAnnots w.expansions).reverse))
        (w.expansions.filter fun e => ! isParamExp e) ∧
    List.Pairwise (fun a b => b.1.lo < a.1.lo) ((paramAnnots w.expansions).reverse) := by
  refine ⟨expandParameters_clean engine w, ?_⟩
  rw [List.pairwise_reverse]
  exact h

/-- Witness for C4: the word `$A:$?` with `A=x` and last statuses `[0, 1]`
satisfies the ordering hypothesis, and the theorem applies to it. -/
theorem expand_parameters_spec_witness :
    List.Pairwise (fun a b => a.1.lo < b.1.lo) (paramAnnots wordParams.expansions) ∧
    (expandParameters engParams wordParams =
      Word.mk wordParams.whitespace
        (List.foldl (fun nm a => replaceRange nm a.1 (paramReplacement engParams a.2))
          wordParams.name ((paramAnnots wordParams.expansions).reverse))
        (wordParams.expansions.filter fun e => ! isParamExp e) ∧
     List.Pairwise (fun a b => b.1.lo < a.1.lo) ((paramAnnots wordParams.expansions).reverse)) :=
  ⟨by decide, expand_parameters_spec engParams wordParams (by decide)⟩

/-- C5, counterexample.  On a word with two `Tilde` annotations (`~:~` with
`HOME=/h`), `expand_tilde` expands and removes only the first one: a `Tilde`
annotation survives, and the second tilde is left unexpanded, so tilde
expansion does not handle each `Tilde` annotation. -/
theorem tilde_second_annotation_survives :
    (expandTilde engHome wordTwoTildes).expansions = [Expansion.Tilde ⟨2, 2⟩ []] ∧
    ((expandTilde engHome wordTwoTildes).expansions.any isTildeExp) = true ∧
    (expandTilde engHome wordTwoTildes).name = ("/h:~").toList :=
  ⟨rfl, rfl, rfl⟩

/-- C5, amended.  Tilde expansion handles only the first `Tilde{range,
name}` annotation of a word, if any: when the name is empty, the range is
replaced with `$HOME`; when the name is a nonempty portable filename of a
user the system knows, the range is replaced with the hard-coded
`/home/<name>`; otherwise the text is left intact.  In every case that
first annotation, and only it, is removed. -/
theorem expand_tilde_first_only (engine : Engine) (w : Word) :
    expandTilde engine w =
      match extractFirstTilde w.expansions with
      | none => w
      | some (r, n, rest) =>
        Word.mk w.whitespace
          (if n ≠ [] ∧ isPortableFilename n ∧ engine.systemHasUser n then
            replaceRange w.name r (("/home/").toList ++ n)
          else if n = [] then
            replaceRange w.name r engine.homeDir
          else
            w.name)
          rest :=
  expandTilde_clean engine w

/-- C6, counterexample.  A word annotated with `Glob`, `Brace` and two
`Tilde` annotations still carries a `Glob`, a `Brace` and a `Tilde`
annotation after `Word::expand`: expansion removes neither `Glob` nor
`Brace` annotations, nor `Tilde` annotations past the first. -/
theorem glob_brace_tilde_survive_expand :
    (Word.expand wordGlobBrace engHome).expansions =
      [Expansion.Glob ⟨3, 3⟩ false ['x'], Expansion.Brace ⟨3, 3⟩ ['x'],
       Expansion.Tilde ⟨2, 2⟩ []] ∧
    ((Word.expand wordGlobBrace engHome).expansions.any
      fun e => isGlobExp e || isBraceExp e || isTildeExp e) = true :=
  ⟨rfl, rfl⟩

/-- C6, amended.  After `Word::expand`, the expansions list is exactly the
original list minus its first `Tilde` annotation (if any) and minus all
`Parameter` annotations; in particular no `Parameter` annotation remains,
while `Glob`, `Brace` and later `Tilde` annotations survive alongside the
deferred `Command` and `Arithmetic` ones. -/
theorem expand_expansions_after (w : Word) (engine : Engine) :
    (Word.expand w engine).expansions =
      (removeFirstTilde w.expansions).filter (fun e => ! isParamExp e) ∧
    ((Word.expand w engine).expansions.all fun e => ! isParamExp e) = true := by
  have h1 : (Word.expand w engine).expansions =
      (removeFirstTilde w.expansions).filter (fun e => ! isParamExp e) := by
    show (quoteRemoval (expandParameters engine (expandTilde engine w))).expansions = _
    rw [(quoteRemoval_frame _).2, expandParameters_clean]
    show (expandTilde engine w).expansions.filter _ = _
    rw [expandTilde_expansions]
  refine ⟨h1, ?_⟩
  rw [h1]
  simp only [List.all_eq_true, List.mem_filter]
  intro e he
  exact he.2

/-- C7.  `list_with_separator` pairs every and-or list of the command, in
source order, with the separator operator that followed it; the final pair
gets the stored `separator_op`, or the default `;` when the source omitted
it; a comment-only complete command yields the empty list. -/
theorem list_with_separator_spec :
    (∀ (l : CmdList) (so : Option SeparatorOp) (c : Option Comment),
      listWithSeparator (.List l so c) =
        (l.head :: l.tail.map Prod.snd).zip
          (l.tail.map Prod.fst ++ [so.getD SeparatorOp.defaultSep])) ∧
    ∀ (cm : Comment), listWithSeparator (.Comment cm) = [] := by
  refine ⟨?_, fun cm => rfl⟩
  intro l so c
  obtain ⟨head, tail⟩ := l
  cases tail with
  | nil => cases so <;> rfl
  | cons p rest =>
    cases so <;>
      simp [listWithSeparator, CmdList.head, CmdList.tail, lwsGo_zip]

/-- C8.  Every error the parser core produces surfaces at the public
boundary as one of the two distinguished `Error` variants, `Incomplete` or
`SyntaxError`. -/
theorem parser_errors_distinguished (pe : ParserError) :
    (∃ d, pe.toError = Error.Incomplete d) ∨ ∃ d, pe.toError = Error.SyntaxError d := by
  cases pe with
  | Incomplete d => exact Or.inl ⟨d, rfl⟩
  | SyntaxError d => exact Or.inr ⟨d, rfl⟩

/-- C9.  `Word::expand` never modifies the leading whitespace of a word:
tilde expansion, parameter expansion and quote removal all rebuild the word
with its original `whitespace` field. -/
theorem expand_preserves_whitespace (w : Word) (engine : Engine) :
    (Word.expand w engine).whitespace = w.whitespace := by
  show (quoteRemoval (expandParameters engine (expandTilde engine w))).whitespace = _
  rw [(quoteRemoval_frame _).1, expandParameters_whitespace, expandTilde_whitespace]

/-- C10.  Expanding a `SimpleCommand` drops, unexpanded, exactly the word
suffixes whose text is empty after deleting all backslash-newline pairs;
every other suffix, every prefix and the command name are expanded and kept
in their original order. -/
theorem simple_command_expand_spec (sc : SimpleCommand) (engine : Engine) :
    SimpleCommand.expand sc engine =
      SimpleCommand.mk (sc.name.map fun w => w.expand engine)
        (sc.prefixes.map (expandCmdPrefix engine))
        ((sc.suffixes.filter fun s => ! isOnlyEscapedNewlines s).map
          (expandCmdSuffix engine)) := by
  show SimpleCommand.mk _ _ (expandSuffixList engine sc.suffixes) = _
  rw [expandSuffixList_eq]

end Posh
